import Mathlib

set_option linter.unusedSectionVars false

/-!
Shallow embedding of the core of the `runt` game framework: the layered
entity container of `world.go` and the fixed/variable timestep main loop
of `engine.go`.  (The repository carries a second iteration of the same
container that additionally maintains per-kind counts; its queue, layer
and pool semantics are identical to `world.go`, which is embedded here.)

Modelling conventions:
* Go maps (`map[int][]Entity`, `map[string][]Entity`) are modelled as
  association lists: a read of an absent key yields the zero value
  (`nil` slice, modelled by `[]`), and an assignment inserts the key.
  This distinction between "key absent" and "key present with empty
  slice" is preserved because `FlushQueues` branches on the comma-ok
  idiom `_, ok := w.layers[layer]`.
* `float64` timing arithmetic is modelled over `ℚ`.
* An entity's `Layer()` method is a method call whose result may change
  over time, so it is modelled as a function `E → Int` supplied at each
  operation that actually calls `e.Layer()` (i.e. at flush / reorder
  time, not at enqueue time, mirroring the source).
* `game.Update`, `game.Draw`, snapshots and rendering are effectful and
  irrelevant to the timing state; the frame model records the list of
  `dt` values passed to `Update` and the published `Elapsed` / `Interp`.
-/

namespace Runt

/-- Lookup in an association list modelling a Go map; `none` means the key is
absent from the map. -/
def mapGet {K V : Type} [DecidableEq K] : List (K × V) → K → Option V
  | [], _ => none
  | (k, v) :: rest, k' => if k = k' then some v else mapGet rest k'

/-- Write modelling a Go map assignment `m[k] = v`: overwrites the value of an
existing key, otherwise inserts the key. -/
def mapSet {K V : Type} [DecidableEq K] : List (K × V) → K → V → List (K × V)
  | [], k', v' => [(k', v')]
  | (k, v) :: rest, k', v' =>
      if k = k' then (k', v') :: rest else (k, v) :: mapSet rest k' v'

/-- Read with default: a Go map read `m[k]` of an absent key yields the zero
value, which for slice values is the empty slice. -/
def getD {K V : Type} [DecidableEq K] (m : List (K × V)) (k : K) (d : V) : V :=
  (mapGet m k).getD d

/-- Remove the first occurrence of `e` from a list, modelling the Go idiom
`append(list[:i], list[i+1:]...)` at the first index `i` with `list[i] == e`
(the scan breaks after the first match).  If `e` does not occur the list is
returned unchanged, matching the loop finding no match. -/
def eraseFirst {E : Type} [DecidableEq E] : List E → E → List E
  | [], _ => []
  | x :: rest, e => if x = e then rest else x :: eraseFirst rest e

/-- World holds and updates/draws a set of entities in layers, with add/remove
queues, camera support and a recycling pool (`world.go`, type `World`). -/
structure World (E : Type) where
  layers : List (Int × List E)
  layerOrder : List Int
  addQueue : List E
  removeQueue : List E
  cameraX : ℚ
  cameraY : ℚ
  useCamera : Bool
  pool : List (String × List E)

variable {E : Type} [DecidableEq E]

/-- NewWorld makes an empty World (`world.go`, `NewWorld`). -/
def NewWorld : World E :=
  { layers := [], layerOrder := [], addQueue := [], removeQueue := [],
    cameraX := 0, cameraY := 0, useCamera := false, pool := [] }

/-- Add queues an entity for addition at the end of the frame (`world.go`,
`Add`).  Note that `e.Layer()` is not called here. -/
def World.Add (w : World E) (e : E) : World E :=
  { w with addQueue := w.addQueue ++ [e] }

/-- Remove queues an entity for removal at the end of the frame (`world.go`,
`Remove`).  Note that `e.Layer()` is not called here. -/
def World.Remove (w : World E) (e : E) : World E :=
  { w with removeQueue := w.removeQueue ++ [e] }

/-- One iteration of the removal loop of `FlushQueues`: look up `e.Layer()`
(the layer function `f` at flush time), scan that layer's slice for the first
identity match and delete it; the map is written only when a match is found. -/
def removeOne (f : E → Int) (m : List (Int × List E)) (e : E) : List (Int × List E) :=
  let layer := f e
  let list := getD m layer []
  if e ∈ list then mapSet m layer (eraseFirst list e) else m

/-- One iteration of the addition loop of `FlushQueues`, acting on the pair
(layers map, layerOrder): look up `e.Layer()`; if the layer key is absent
(`!ok`), create it and insert it into the sorted layer-order list; then append
the entity to the layer's slice.  `sort.Ints` is modelled by insertion sort. -/
def addOne (f : E → Int) (st : List (Int × List E) × List Int) (e : E) :
    List (Int × List E) × List Int :=
  let layer := f e
  let st1 :=
    if (mapGet st.1 layer).isSome then st
    else (mapSet st.1 layer [], List.insertionSort (· ≤ ·) (st.2 ++ [layer]))
  (mapSet st1.1 layer (getD st1.1 layer [] ++ [e]), st1.2)

/-- FlushQueues integrates all queued adds/removes (`world.go`,
`FlushQueues`): first the removal loop over `removeQueue`, then the addition
loop over `addQueue`, then both queues are cleared. -/
def World.FlushQueues (f : E → Int) (w : World E) : World E :=
  let m1 := w.removeQueue.foldl (removeOne f) w.layers
  let st2 := w.addQueue.foldl (addOne f) (m1, w.layerOrder)
  { w with layers := st2.1, layerOrder := st2.2, addQueue := [], removeQueue := [] }

/-- Read of one layer's slice, `w.layers[layer]` (absent key yields `nil`). -/
def World.getLayer (w : World E) (l : Int) : List E :=
  getD w.layers l []

/-- Flat list of all entities in layer order, as built by the append loop of
`Entities` (`world.go`, lines 58-63), without the implicit flush. -/
def World.entitiesList (w : World E) : List E :=
  w.layerOrder.foldl (fun acc l => acc ++ w.getLayer l) []

/-- Entities returns a flat slice of all entities in ascending layer,
insertion order, flushing the queues first (`world.go`, `Entities`).  The
flushed world is returned as well because the method mutates the receiver. -/
def World.Entities (f : E → Int) (w : World E) : List E × World E :=
  (World.entitiesList (World.FlushQueues f w), World.FlushQueues f w)

/-- BringToFront moves `e` to the highest index in its layer slice
(`world.go`, `BringToFront`).  The slice is written back to the map
unconditionally (`w.layers[layer] = list`), also when `e` was not found, so
an absent key is created by this call. -/
def World.BringToFront (f : E → Int) (w : World E) (e : E) : World E :=
  let layer := f e
  let list := w.getLayer layer
  let list2 := if e ∈ list then eraseFirst list e ++ [e] else list
  { w with layers := mapSet w.layers layer list2 }

/-- SendToBack moves `e` to index 0 in its layer slice (`world.go`,
`SendToBack`).  Like `BringToFront` the slice is written back to the map
unconditionally, creating the key when absent. -/
def World.SendToBack (f : E → Int) (w : World E) (e : E) : World E :=
  let layer := f e
  let list := w.getLayer layer
  let list2 := if e ∈ list then e :: eraseFirst list e else list
  { w with layers := mapSet w.layers layer list2 }

/-- Swap the first `e` that has a successor with that successor, modelling the
loop of `BringForward` (`if list[i] == e && i < len(list)-1` swap and break). -/
def swapNext : List E → E → List E
  | [], _ => []
  | [x], _ => [x]
  | x :: y :: rest, e => if x = e then y :: x :: rest else x :: swapNext (y :: rest) e

/-- Swap the first `e` found at an index `i > 0` with its predecessor,
modelling the loop of `SendBackward`. -/
def swapPrev : List E → E → List E
  | [], _ => []
  | [x], _ => [x]
  | x :: y :: rest, e => if y = e then y :: x :: rest else x :: swapPrev (y :: rest) e

/-- BringForward swaps `e` with the entity in front of it (`world.go`,
`BringForward`).  The swap mutates the slice in place, so the map value
changes only when the key is present; no key is created. -/
def World.BringForward (f : E → Int) (w : World E) (e : E) : World E :=
  let layer := f e
  if (mapGet w.layers layer).isSome then
    { w with layers := mapSet w.layers layer (swapNext (w.getLayer layer) e) }
  else w

/-- SendBackward swaps `e` with the entity behind it (`world.go`,
`SendBackward`); in-place slice mutation, no key creation. -/
def World.SendBackward (f : E → Int) (w : World E) (e : E) : World E :=
  let layer := f e
  if (mapGet w.layers layer).isSome then
    { w with layers := mapSet w.layers layer (swapPrev (w.getLayer layer) e) }
  else w

/-- Recycle pushes `e` into the type-based pool (`world.go`, `Recycle`). -/
def World.Recycle (w : World E) (typeName : String) (e : E) : World E :=
  { w with pool := mapSet w.pool typeName (getD w.pool typeName [] ++ [e]) }

/-- Create pulls the most recently recycled entity of the kind from the pool
if the pool is non-empty, else invokes the constructor (`world.go`,
`Create`).  The possibly-updated world is returned alongside the entity. -/
def World.Create (w : World E) (typeName : String) (ctor : Unit → E) : E × World E :=
  let lst := getD w.pool typeName []
  if h : lst = [] then (ctor (), w)
  else (lst.getLast h, { w with pool := mapSet w.pool typeName lst.dropLast })

/-- Key/order consistency on the pair (layers map, layer-order list): every
map key is listed in the order list and every listed layer is a map key.
This is the relation the comma-ok check of `FlushQueues` relies on. -/
def KeyInvP (m : List (Int × List E)) (o : List Int) : Prop :=
  (∀ p ∈ m, p.1 ∈ o) ∧ (∀ l ∈ o, (mapGet m l).isSome = true)

/-- Key/order consistency of a world. -/
def KeyInv (w : World E) : Prop :=
  KeyInvP w.layers w.layerOrder

/-- Full container invariant: the layer-order list is strictly increasing
(distinct layers kept sorted) and is consistent with the map keys. -/
def WInv (w : World E) : Prop :=
  w.layerOrder.Pairwise (· < ·) ∧ KeyInv w

/-- Engine configuration relevant to the timing loop (`engine.go`, `Engine`):
`step` is `tickRate.Seconds()`, `maxElapsed` the dt clamp, `maxFrameSkip` the
physics-step cap, `rate` the global time-scale `Rate`, `fixed` the mode flag.
`NewEngine` sets `step = 1/fps`, `maxElapsed = 1/10`, `maxFrameSkip = 5`. -/
structure EngineCfg where
  step : ℚ
  maxElapsed : ℚ
  maxFrameSkip : Nat
  rate : ℚ
  fixed : Bool

/-- The catch-up loop `for lag >= step { Update(step); lag -= step }` of
`Run`, returning the number of fixed steps executed and the final lag.  The
source loop does not terminate when `step ≤ 0` (the tick rate is positive for
any sane fps), so the model guards on `0 < step` and every theorem about it
assumes a positive step. -/
def runSteps (step : ℚ) (lag : ℚ) : Nat × ℚ :=
  if h : 0 < step ∧ step ≤ lag then
    let r := runSteps step (lag - step)
    (r.1 + 1, r.2)
  else (0, lag)
termination_by Nat.floor (lag / step)
decreasing_by
  have hs : 0 < step := h.1
  have hl : step ≤ lag := h.2
  have h1 : (1 : ℚ) ≤ lag / step := by
    rw [le_div_iff₀ hs]; simpa using hl
  have hfl : (0 : Nat) < Nat.floor (lag / step) := by
    exact Nat.floor_pos.mpr h1
  have hsub : (lag - step) / step = lag / step - 1 := by
    field_simp
  rw [hsub]
  have : Nat.floor (lag / step - (1 : Nat)) = Nat.floor (lag / step) - 1 := by
    exact_mod_cast Nat.floor_sub_nat (lag / step) 1
  simp only [Nat.cast_one] at this
  omega

/-- Observable outcome of a single frame of `Run`: the published `Elapsed`,
the list of dt values passed to `game.Update` (in order), the lag accumulator
after the frame, and the interpolation factor published as `Interp` and
passed to `game.Draw`. -/
structure FrameOut where
  elapsed : ℚ
  updates : List ℚ
  lag : ℚ
  interp : ℚ

/-- One iteration of the main loop of `Run` (`engine.go`, lines 89-181),
given the measured delta `dt0` and the paused flag for this frame: clamp the
delta at `maxElapsed`, publish `Elapsed = dt * Rate`; when unpaused and in
fixed mode accumulate lag, clamp it at `step * maxFrameSkip`, run the fixed
steps; when unpaused in variable mode run one update with the clamped delta;
finally publish the interpolation factor (`lag/step` in fixed mode, else 0).
There is no branch for a negative or NaN delta: only the upper clamp exists
in the source. -/
def runFrame (c : EngineCfg) (paused : Bool) (lag : ℚ) (dt0 : ℚ) : FrameOut :=
  let dt := if dt0 > c.maxElapsed then c.maxElapsed else dt0
  let elapsed := dt * c.rate
  if paused then
    { elapsed := elapsed, updates := [], lag := lag,
      interp := if c.fixed then lag / c.step else 0 }
  else if c.fixed then
    let lag1 := lag + dt
    let cap := c.step * (c.maxFrameSkip : ℚ)
    let lag2 := if lag1 > cap then cap else lag1
    let r := runSteps c.step lag2
    { elapsed := elapsed, updates := List.replicate r.1 c.step, lag := r.2,
      interp := r.2 / c.step }
  else
    { elapsed := elapsed, updates := [dt], lag := lag, interp := 0 }

/-- Trace of the main loop over a sequence of frames, each given as a pair of
the measured delta and the paused flag for that frame; the lag accumulator is
threaded through (it starts at 0 when `Run` begins). -/
def runFrames (c : EngineCfg) : ℚ → List (ℚ × Bool) → List FrameOut
  | _, [] => []
  | lag, fr :: rest =>
      let fo := runFrame c fr.2 lag fr.1
      fo :: runFrames c fo.lag rest

/-- Layer function used by the concrete test inputs: every entity on layer 0. -/
def fzero : Nat → Int := fun _ => 0

/-- Engine configuration of `NewEngine(..., fps = 60, fixed = true)`. -/
def cfgRun : EngineCfg :=
  { step := 1/60, maxElapsed := 1/10, maxFrameSkip := 5, rate := 1, fixed := true }

/-- Fixed-mode configuration with a 1-second step, for witnesses. -/
def cfgF : EngineCfg :=
  { step := 1, maxElapsed := 1/10, maxFrameSkip := 5, rate := 1, fixed := true }

/-- Variable-mode configuration, for witnesses. -/
def cfgV : EngineCfg :=
  { step := 1/60, maxElapsed := 1/10, maxFrameSkip := 5, rate := 1, fixed := false }

/-- Concrete world with one live entity `7` on layer 0 and empty queues. -/
def wLive : World Nat :=
  { layers := [(0, [7])], layerOrder := [0], addQueue := [], removeQueue := [],
    cameraX := 0, cameraY := 0, useCamera := false, pool := [] }

/-- Concrete world whose remove queue holds the same live entity twice. -/
def wDouble : World Nat :=
  { wLive with removeQueue := [7, 7] }

/-- Concrete world queueing entity `5` (layer 1) then entity `9` (layer 0). -/
def wAB : World Nat :=
  ((NewWorld : World Nat).Add 5).Add 9

/-- Layer function for `wAB`: entity 5 sits on layer 1, all others on 0. -/
def fAB : Nat → Int := fun e => if e = 5 then 1 else 0

/-! ### Lemmas about the association-list map model -/

theorem mapGet_mapSet_self {K V : Type} [DecidableEq K] (m : List (K × V)) (k : K) (v : V) :
    mapGet (mapSet m k v) k = some v := by
  induction m with
  | nil => simp [mapSet, mapGet]
  | cons p rest ih =>
    obtain ⟨k1, v1⟩ := p
    by_cases h : k1 = k
    · subst h; simp [mapSet, mapGet]
    · simp [mapSet, mapGet, h, ih]

theorem mapGet_mapSet_ne {K V : Type} [DecidableEq K] (m : List (K × V)) {k l : K} (v : V)
    (h : l ≠ k) : mapGet (mapSet m k v) l = mapGet m l := by
  have hk : k ≠ l := fun hc => h hc.symm
  induction m with
  | nil => simp [mapSet, mapGet, hk]
  | cons p rest ih =>
    obtain ⟨k1, v1⟩ := p
    by_cases h1 : k1 = k
    · subst h1
      simp [mapSet, mapGet, hk]
    · by_cases h2 : k1 = l
      · subst h2
        simp [mapSet, mapGet, h1, h]
      · simp [mapSet, mapGet, h1, h2, ih]

theorem getD_mapSet_self {K V : Type} [DecidableEq K] (m : List (K × V)) (k : K) (v d : V) :
    getD (mapSet m k v) k d = v := by
  simp [getD, mapGet_mapSet_self]

theorem getD_mapSet_ne {K V : Type} [DecidableEq K] (m : List (K × V)) {k l : K} (v d : V)
    (h : l ≠ k) : getD (mapSet m k v) l d = getD m l d := by
  simp [getD, mapGet_mapSet_ne m v h]

theorem mem_of_mapGet_some {K V : Type} [DecidableEq K] {m : List (K × V)} {k : K} {v : V}
    (h : mapGet m k = some v) : (k, v) ∈ m := by
  induction m with
  | nil => simp [mapGet] at h
  | cons p rest ih =>
    obtain ⟨k1, v1⟩ := p
    by_cases h1 : k1 = k
    · subst h1
      simp [mapGet] at h
      simp [h]
    · simp [mapGet, h1] at h
      exact List.mem_cons_of_mem _ (ih h)

theorem mem_mapSet {K V : Type} [DecidableEq K] {m : List (K × V)} {k : K} {v : V}
    {p : K × V} (h : p ∈ mapSet m k v) : p = (k, v) ∨ p ∈ m := by
  induction m with
  | nil => simp [mapSet] at h; simp [h]
  | cons q rest ih =>
    obtain ⟨k1, v1⟩ := q
    by_cases h1 : k1 = k
    · subst h1
      simp [mapSet] at h
      rcases h with h | h
      · exact Or.inl h
      · exact Or.inr (List.mem_cons_of_mem _ h)
    · simp [mapSet, h1] at h
      rcases h with h | h
      · exact Or.inr (by simp [h])
      · rcases ih h with h2 | h2
        · exact Or.inl h2
        · exact Or.inr (List.mem_cons_of_mem _ h2)

theorem mapGet_eq_none {K V : Type} [DecidableEq K] {m : List (K × V)} {k : K}
    (h : ∀ p ∈ m, p.1 ≠ k) : mapGet m k = none := by
  cases heq : mapGet m k with
  | none => rfl
  | some v => exact absurd rfl (h (k, v) (mem_of_mapGet_some heq))

/-! ### Lemmas about the catch-up loop `runSteps` -/

theorem runSteps_base {step lag : ℚ} (h : ¬(0 < step ∧ step ≤ lag)) :
    runSteps step lag = (0, lag) := by
  rw [runSteps, dif_neg h]

theorem runSteps_next {step lag : ℚ} (h : 0 < step ∧ step ≤ lag) :
    runSteps step lag
      = ((runSteps step (lag - step)).1 + 1, (runSteps step (lag - step)).2) := by
  rw [runSteps, dif_pos h]

theorem floor_div_sub_one {step lag : ℚ} (hs : 0 < step) (hl : step ≤ lag) :
    Nat.floor ((lag - step) / step) = Nat.floor (lag / step) - 1 ∧
      0 < Nat.floor (lag / step) := by
  have h1 : (1 : ℚ) ≤ lag / step := by
    rw [le_div_iff₀ hs]; simpa using hl
  have hfl : (0 : Nat) < Nat.floor (lag / step) := Nat.floor_pos.mpr h1
  have hsub : (lag - step) / step = lag / step - 1 := by field_simp
  constructor
  · rw [hsub]
    exact_mod_cast Nat.floor_sub_nat (lag / step) 1
  · exact hfl

theorem runSteps_spec {step : ℚ} (hs : 0 < step) :
    ∀ n : Nat, ∀ lag : ℚ, Nat.floor (lag / step) < n →
      (runSteps step lag).2 < step ∧ (runSteps step lag).2 ≤ lag ∧
        (0 ≤ lag → 0 ≤ (runSteps step lag).2) := by
  intro n
  induction n with
  | zero => intro lag h; exact absurd h (Nat.not_lt_zero _)
  | succ n ih =>
    intro lag h
    by_cases hl : step ≤ lag
    · obtain ⟨hfloor, hpos⟩ := floor_div_sub_one hs hl
      have hlt : Nat.floor ((lag - step) / step) < n := by omega
      obtain ⟨h1, h2, h3⟩ := ih (lag - step) hlt
      rw [runSteps_next ⟨hs, hl⟩]
      refine ⟨h1, le_trans h2 (by linarith), fun _ => h3 (by linarith)⟩
    · rw [runSteps_base (fun hc => hl hc.2)]
      exact ⟨lt_of_not_le hl, le_refl _, fun h0 => h0⟩

theorem runSteps_snd_lt {step lag : ℚ} (hs : 0 < step) : (runSteps step lag).2 < step :=
  (runSteps_spec hs (Nat.floor (lag / step) + 1) lag (Nat.lt_succ_self _)).1

theorem runSteps_snd_le {step lag : ℚ} (hs : 0 < step) : (runSteps step lag).2 ≤ lag :=
  (runSteps_spec hs (Nat.floor (lag / step) + 1) lag (Nat.lt_succ_self _)).2.1

theorem runSteps_snd_nonneg {step lag : ℚ} (hs : 0 < step) (h0 : 0 ≤ lag) :
    0 ≤ (runSteps step lag).2 :=
  (runSteps_spec hs (Nat.floor (lag / step) + 1) lag (Nat.lt_succ_self _)).2.2 h0

theorem runSteps_fst_le {step : ℚ} (hs : 0 < step) :
    ∀ k : Nat, ∀ lag : ℚ, lag ≤ (k : ℚ) * step → (runSteps step lag).1 ≤ k := by
  intro k
  induction k with
  | zero =>
    intro lag h
    have : ¬(step ≤ lag) := by push_cast at h; intro hc; linarith
    rw [runSteps_base (fun hc => this hc.2)]
  | succ k ih =>
    intro lag h
    by_cases hl : step ≤ lag
    · rw [runSteps_next ⟨hs, hl⟩]
      have hrec : lag - step ≤ (k : ℚ) * step := by push_cast at h ⊢; linarith
      have := ih (lag - step) hrec
      omega
    · rw [runSteps_base (fun hc => hl hc.2)]
      exact Nat.zero_le _

/-! ### Per-frame and per-trace bounds of the main loop -/

theorem clamped_le (x cap : ℚ) : (if x > cap then cap else x) ≤ cap := by
  by_cases h : x > cap
  · rw [if_pos h]
  · rw [if_neg h]; exact le_of_not_lt h

theorem runFrame_fixed_bounds (c : EngineCfg) (hs : 0 < c.step) (hfix : c.fixed = true)
    (paused : Bool) (lag dt0 : ℚ) (hlag : lag ≤ c.step * (c.maxFrameSkip : ℚ)) :
    (runFrame c paused lag dt0).lag ≤ c.step * (c.maxFrameSkip : ℚ) ∧
      (runFrame c paused lag dt0).updates.length ≤ c.maxFrameSkip := by
  obtain ⟨step, maxElapsed, skip, rate, fixed⟩ := c
  simp only at hs hfix hlag ⊢
  subst hfix
  cases paused with
  | true => simpa [runFrame] using hlag
  | false =>
    simp only [runFrame, Bool.false_eq_true, if_false, if_true]
    constructor
    · exact le_trans (runSteps_snd_le hs) (clamped_le _ _)
    · rw [List.length_replicate]
      refine runSteps_fst_le hs skip _ ?_
      exact le_of_le_of_eq (clamped_le _ _) (mul_comm _ _)

theorem runFrames_fixed_bounds (c : EngineCfg) (hs : 0 < c.step) (hfix : c.fixed = true) :
    ∀ frames : List (ℚ × Bool), ∀ lag : ℚ, lag ≤ c.step * (c.maxFrameSkip : ℚ) →
      ∀ fo ∈ runFrames c lag frames,
        fo.updates.length ≤ c.maxFrameSkip ∧
          fo.lag ≤ c.step * (c.maxFrameSkip : ℚ) := by
  intro frames
  induction frames with
  | nil => intro lag _ fo hfo; simp [runFrames] at hfo
  | cons fr rest ih =>
    intro lag hlag fo hfo
    obtain ⟨hl, hn⟩ := runFrame_fixed_bounds c hs hfix fr.2 lag fr.1 hlag
    simp only [runFrames, List.mem_cons] at hfo
    rcases hfo with h | h
    · subst h; exact ⟨hn, hl⟩
    · exact ih _ hl fo h

theorem clamped_nonneg (x cap : ℚ) (hx : 0 ≤ x) (hc : 0 ≤ cap) :
    0 ≤ (if x > cap then cap else x) := by
  by_cases h : x > cap
  · rw [if_pos h]; exact hc
  · rw [if_neg h]; exact hx

theorem runFrame_interp_fixed (c : EngineCfg) (hs : 0 < c.step) (hme : 0 ≤ c.maxElapsed)
    (hfix : c.fixed = true) (paused : Bool) (lag dt0 : ℚ) (h0 : 0 ≤ lag)
    (h1 : lag < c.step) (hdt : 0 ≤ dt0) :
    (0 ≤ (runFrame c paused lag dt0).interp ∧ (runFrame c paused lag dt0).interp < 1) ∧
      (0 ≤ (runFrame c paused lag dt0).lag ∧ (runFrame c paused lag dt0).lag < c.step) := by
  obtain ⟨step, maxElapsed, skip, rate, fixed⟩ := c
  simp only at hs hme hfix h1 ⊢
  subst hfix
  cases paused with
  | true =>
    simp only [runFrame, if_true]
    exact ⟨⟨div_nonneg h0 hs.le, (div_lt_one hs).mpr h1⟩, h0, h1⟩
  | false =>
    simp only [runFrame, Bool.false_eq_true, if_false, if_true]
    have hdt2 : 0 ≤ (if dt0 > maxElapsed then maxElapsed else dt0) := by
      by_cases h : dt0 > maxElapsed
      · rw [if_pos h]; exact hme
      · rw [if_neg h]; exact hdt
    have hcap : (0 : ℚ) ≤ step * (skip : ℚ) := mul_nonneg hs.le (Nat.cast_nonneg _)
    have h2 := clamped_nonneg _ _ (add_nonneg h0 hdt2) hcap
    exact ⟨⟨div_nonneg (runSteps_snd_nonneg hs h2) hs.le,
        (div_lt_one hs).mpr (runSteps_snd_lt hs)⟩,
      runSteps_snd_nonneg hs h2, runSteps_snd_lt hs⟩

theorem runFrame_var (c : EngineCfg) (hfix : c.fixed = false) (paused : Bool) (lag dt0 : ℚ) :
    (runFrame c paused lag dt0).interp = 0 ∧ (runFrame c paused lag dt0).lag = lag := by
  obtain ⟨step, maxElapsed, skip, rate, fixed⟩ := c
  simp only at hfix
  subst hfix
  cases paused with
  | true => simp [runFrame]
  | false => simp [runFrame]

theorem runFrames_interp_fixed (c : EngineCfg) (hs : 0 < c.step) (hme : 0 ≤ c.maxElapsed)
    (hfix : c.fixed = true) :
    ∀ frames : List (ℚ × Bool), (∀ fr ∈ frames, 0 ≤ fr.1) →
      ∀ lag : ℚ, 0 ≤ lag → lag < c.step →
        ∀ fo ∈ runFrames c lag frames, 0 ≤ fo.interp ∧ fo.interp < 1 := by
  intro frames
  induction frames with
  | nil => intro _ lag _ _ fo hfo; simp [runFrames] at hfo
  | cons fr rest ih =>
    intro hdts lag h0 h1 fo hfo
    have hfr : 0 ≤ fr.1 := hdts fr (List.mem_cons_self _ _)
    obtain ⟨hi, hl⟩ := runFrame_interp_fixed c hs hme hfix fr.2 lag fr.1 h0 h1 hfr
    simp only [runFrames, List.mem_cons] at hfo
    rcases hfo with h | h
    · subst h; exact hi
    · exact ih (fun x hx => hdts x (List.mem_cons_of_mem _ hx)) _ hl.1 hl.2 fo h

theorem runFrames_interp_var (c : EngineCfg) (hfix : c.fixed = false) :
    ∀ frames : List (ℚ × Bool), ∀ lag : ℚ, ∀ fo ∈ runFrames c lag frames, fo.interp = 0 := by
  intro frames
  induction frames with
  | nil => intro lag fo hfo; simp [runFrames] at hfo
  | cons fr rest ih =>
    intro lag fo hfo
    simp only [runFrames, List.mem_cons] at hfo
    rcases hfo with h | h
    · subst h; exact (runFrame_var c hfix fr.2 lag fr.1).1
    · exact ih _ fo h

/-- Claim C2: in fixed mode, for every sequence of per-frame measured deltas
(and paused flags), the lag accumulator as observed at each frame boundary
never exceeds `step * maxFrameSkip`, and the number of fixed-size update
steps executed within any single frame never exceeds `maxFrameSkip`.  This
holds for all rational deltas, including negative ones, for any positive
step; `Run` starts with `lag = 0`. -/
theorem lag_and_steps_bounded (c : EngineCfg) (frames : List (ℚ × Bool))
    (hs : 0 < c.step) (hfix : c.fixed = true) :
    ∀ fo ∈ runFrames c 0 frames,
      fo.updates.length ≤ c.maxFrameSkip ∧
        fo.lag ≤ c.step * (c.maxFrameSkip : ℚ) :=
  runFrames_fixed_bounds c hs hfix frames 0 (mul_nonneg hs.le (Nat.cast_nonneg _))

/-- Witness for C2: the bound instantiated at the `NewEngine` configuration
with fps 60 and a concrete overloaded frame (one second of measured delta). -/
theorem lag_and_steps_bounded_app :
    0 < cfgRun.step ∧ cfgRun.fixed = true ∧
      ∀ fo ∈ runFrames cfgRun 0 [(1, false)],
        fo.updates.length ≤ cfgRun.maxFrameSkip ∧
          fo.lag ≤ cfgRun.step * (cfgRun.maxFrameSkip : ℚ) :=
  ⟨by norm_num [cfgRun], rfl, lag_and_steps_bounded cfgRun [(1, false)] (by norm_num [cfgRun]) rfl⟩

/-- Claim C3: on every frame the interpolation factor passed to `Draw` and
published as `Interp` lies in `[0, 1)` when the engine is in fixed mode
(given a positive step, a nonnegative delta clamp, and nonnegative measured
deltas, i.e. a monotone clock), and is exactly 0 on every frame in variable
mode (for arbitrary deltas). -/
theorem interp_bounds (c : EngineCfg) (frames : List (ℚ × Bool)) :
    (c.fixed = true → 0 < c.step → 0 ≤ c.maxElapsed → (∀ fr ∈ frames, 0 ≤ fr.1) →
      ∀ fo ∈ runFrames c 0 frames, 0 ≤ fo.interp ∧ fo.interp < 1) ∧
    (c.fixed = false → ∀ fo ∈ runFrames c 0 frames, fo.interp = 0) := by
  constructor
  · intro hfix hs hme hdts
    exact runFrames_interp_fixed c hs hme hfix frames hdts 0 (le_refl 0) hs
  · intro hfix
    exact runFrames_interp_var c hfix frames 0

/-- Witness for C3: the fixed-mode bound at the fps-60 configuration over a
paused and an unpaused frame, and the variable-mode zero at `cfgV`. -/
theorem interp_bounds_app :
    (cfgRun.fixed = true ∧ 0 < cfgRun.step ∧ 0 ≤ cfgRun.maxElapsed ∧
      (∀ fr ∈ [((1 : ℚ), false), ((1/30 : ℚ), true)], 0 ≤ fr.1) ∧
      ∀ fo ∈ runFrames cfgRun 0 [((1 : ℚ), false), ((1/30 : ℚ), true)],
        0 ≤ fo.interp ∧ fo.interp < 1) ∧
    (cfgV.fixed = false ∧
      ∀ fo ∈ runFrames cfgV 0 [((-1 : ℚ), false)], fo.interp = 0) :=
  ⟨⟨rfl, by norm_num [cfgRun], by norm_num [cfgRun], by norm_num,
      (interp_bounds cfgRun [((1 : ℚ), false), ((1/30 : ℚ), true)]).1 rfl
        (by norm_num [cfgRun]) (by norm_num [cfgRun]) (by norm_num)⟩,
    rfl, (interp_bounds cfgV [((-1 : ℚ), false)]).2 rfl⟩

/-- Claim C4 is false of the code (code bug): the loop has no guard for a
negative (or NaN) measured delta.  At the fps-60 fixed configuration a frame
measuring `dt = -1` publishes `Elapsed = -1` (not 0), drives the lag
accumulator to `-1` (instead of adding nothing), and publishes the
out-of-range interpolation factor `-60`; in variable mode the same delta is
passed straight to `game.Update`. -/
theorem negative_delta_propagates :
    (runFrame cfgRun false 0 (-1)).elapsed = -1 ∧
      (runFrame cfgRun false 0 (-1)).lag = -1 ∧
      (runFrame cfgRun false 0 (-1)).interp = -60 ∧
      (runFrame cfgV false 0 (-1)).updates = [-1] := by
  have h : runSteps ((1 : ℚ)/60) (-1) = (0, -1) := runSteps_base (by norm_num)
  refine ⟨?_, ?_, ?_, ?_⟩ <;>
    norm_num [runFrame, cfgRun, cfgV, h]

/-! ### Characterization of `FlushQueues` on a single layer -/

theorem addOne_getD (f : E → Int) (st : List (Int × List E) × List Int) (e : E) (l : Int) :
    getD (addOne f st e).1 l [] =
      getD st.1 l [] ++ (if f e = l then [e] else []) := by
  by_cases hk : (mapGet st.1 (f e)).isSome
  · simp only [addOne, hk, if_true]
    by_cases hl : l = f e
    · subst hl
      rw [getD_mapSet_self, if_pos rfl]
    · rw [getD_mapSet_ne _ _ _ hl, if_neg (fun hc => hl hc.symm), List.append_nil]
  · have hnone : mapGet st.1 (f e) = none := by
      cases hg : mapGet st.1 (f e)
      · rfl
      · rw [hg] at hk; simp at hk
    simp only [addOne, hnone, Option.isSome_none, Bool.false_eq_true, if_false]
    by_cases hl : l = f e
    · subst hl
      rw [getD_mapSet_self, getD_mapSet_self, if_pos rfl]
      simp [getD, hnone]
    · rw [getD_mapSet_ne _ _ _ hl, getD_mapSet_ne _ _ _ hl,
        if_neg (fun hc => hl hc.symm), List.append_nil]

theorem addFold_getD (f : E → Int) (q : List E) :
    ∀ st : List (Int × List E) × List Int, ∀ l : Int,
      getD (q.foldl (addOne f) st).1 l [] =
        getD st.1 l [] ++ q.filter (fun e => decide (f e = l)) := by
  induction q with
  | nil => intro st l; simp
  | cons e q ih =>
    intro st l
    rw [List.foldl_cons, ih, addOne_getD]
    by_cases h : f e = l
    · simp [List.filter_cons, h]
    · simp [List.filter_cons, h]

theorem flush_getLayer (f : E → Int) (w : World E) (l : Int) :
    (World.FlushQueues f w).getLayer l =
      getD (w.removeQueue.foldl (removeOne f) w.layers) l [] ++
        w.addQueue.filter (fun e => decide (f e = l)) := by
  show getD (w.addQueue.foldl (addOne f)
      (w.removeQueue.foldl (removeOne f) w.layers, w.layerOrder)).1 l [] = _
  exact addFold_getD f w.addQueue _ l

/-- Claim C1: `FlushQueues` applies all queued removals first, then all queued
additions in queue order, and leaves both queues empty; consequently an
entity that is live and is removed and re-added between two flushes is not
coalesced into a no-op: after the flush it is live again and sits at the end
of its layer's list.  The third conjunct characterizes every layer of the
flushed world as the post-removal contents followed by the queued additions
for that layer in queue order. -/
theorem flush_removes_then_adds (f : E → Int) (w : World E) :
    (World.FlushQueues f w).addQueue = [] ∧
    (World.FlushQueues f w).removeQueue = [] ∧
    (∀ l, (World.FlushQueues f w).getLayer l =
        getD (w.removeQueue.foldl (removeOne f) w.layers) l [] ++
          w.addQueue.filter (fun e => decide (f e = l))) ∧
    (∀ e, w.addQueue = [] → w.removeQueue = [] → e ∈ w.getLayer (f e) →
      (World.FlushQueues f ((w.Remove e).Add e)).getLayer (f e) =
        eraseFirst (w.getLayer (f e)) e ++ [e]) := by
  refine ⟨rfl, rfl, flush_getLayer f w, ?_⟩
  intro e ha hr he
  rw [flush_getLayer]
  simp only [World.Add, World.Remove, ha, hr, List.nil_append,
    List.foldl_cons, List.foldl_nil]
  have he2 : e ∈ getD w.layers (f e) [] := he
  simp only [removeOne]
  rw [if_pos he2, getD_mapSet_self]
  simp [World.getLayer]

/-- Witness for C1 on the concrete world `wLive` (entity 7 live on layer 0):
removing and re-adding 7 leaves it live at the end of layer 0's list. -/
theorem flush_removes_then_adds_app :
    wLive.addQueue = [] ∧ wLive.removeQueue = [] ∧ 7 ∈ wLive.getLayer (fzero 7) ∧
      (World.FlushQueues fzero ((wLive.Remove 7).Add 7)).getLayer (fzero 7) =
        eraseFirst (wLive.getLayer (fzero 7)) 7 ++ [7] :=
  ⟨rfl, rfl, by decide,
    (flush_removes_then_adds fzero wLive).2.2.2 7 rfl rfl (by decide)⟩

/-- Claim C6: a queued removal of an entity that is not live when its queue
entry is processed (never added, already removed by an earlier queue entry,
or whose add is still queued, since additions are processed after removals)
is a silent no-op: flushing yields exactly the world that flushing without
that queue entry would yield (and the model is total, so no error occurs). -/
theorem remove_absent_noop (f : E → Int) (w : World E) (q1 q2 : List E) (e : E)
    (hq : w.removeQueue = q1 ++ e :: q2)
    (habs : ∀ p ∈ q1.foldl (removeOne f) w.layers, e ∉ p.2) :
    World.FlushQueues f w = World.FlushQueues f { w with removeQueue := q1 ++ q2 } := by
  have hno : e ∉ getD (q1.foldl (removeOne f) w.layers) (f e) [] := by
    intro hmem
    have heq : getD (q1.foldl (removeOne f) w.layers) (f e) []
        = (mapGet (q1.foldl (removeOne f) w.layers) (f e)).getD [] := rfl
    cases hg : mapGet (q1.foldl (removeOne f) w.layers) (f e) with
    | none => rw [heq, hg] at hmem; simp at hmem
    | some v =>
      rw [heq, hg] at hmem
      simp only [Option.getD_some] at hmem
      exact habs (f e, v) (mem_of_mapGet_some hg) hmem
  have hnoop : removeOne f (q1.foldl (removeOne f) w.layers) e
      = q1.foldl (removeOne f) w.layers := by
    simp only [removeOne]
    rw [if_neg hno]
  unfold World.FlushQueues
  simp only [hq]
  rw [List.foldl_append, List.foldl_cons, hnoop, ← List.foldl_append]

/-- Witness for C6: a double-remove of the single live entity 7 of `wDouble`;
the second queue entry is absorbed as a no-op. -/
theorem remove_absent_noop_app :
    wDouble.removeQueue = [7] ++ 7 :: [] ∧
      (∀ p ∈ [7].foldl (removeOne fzero) wDouble.layers, 7 ∉ p.2) ∧
      World.FlushQueues fzero wDouble
        = World.FlushQueues fzero { wDouble with removeQueue := [7] ++ [] } :=
  ⟨rfl, by decide, remove_absent_noop fzero wDouble [7] [] 7 rfl (by decide)⟩

/-! ### Layer reads happen at flush time, not at enqueue time (C8) -/

/-- Counterexample to claim C8 as stated: entity `0` is enqueued via `Add`
while its `Layer()` returns 0 (`Add` does not call `Layer()` at all); by
flush time `Layer()` returns 1 and the entity is inserted into layer 1's
grouping, not layer 0's.  Flushing with the unchanged layer function puts
nothing in layer 1, so the grouping depends on the layer value at flush
time, refuting "read exactly once, at the moment it is enqueued". -/
theorem layer_read_at_enqueue_cex :
    (World.FlushQueues (fun _ => (1 : Int)) ((NewWorld : World Nat).Add 0)).getLayer 1 = [0] ∧
      (World.FlushQueues (fun _ => (1 : Int)) ((NewWorld : World Nat).Add 0)).getLayer 0 = [] ∧
      (World.FlushQueues (fun _ => (0 : Int)) ((NewWorld : World Nat).Add 0)).getLayer 1 = [] := by
  decide

/-- Claim C8, amended: the layer value is read at flush time; a flushed add
appends the entity to the grouping of the layer function as it stands at
flush time, and leaves every other layer's grouping unchanged. -/
theorem layer_read_at_flush (f : E → Int) (w : World E) (e : E) :
    (World.FlushQueues f (w.Add e)).getLayer (f e)
        = (World.FlushQueues f w).getLayer (f e) ++ [e] ∧
      ∀ l, l ≠ f e → (World.FlushQueues f (w.Add e)).getLayer l
        = (World.FlushQueues f w).getLayer l := by
  constructor
  · rw [flush_getLayer, flush_getLayer]
    simp only [World.Add]
    rw [List.filter_append]
    simp [List.append_assoc]
  · intro l hl
    rw [flush_getLayer, flush_getLayer]
    simp only [World.Add]
    rw [List.filter_append]
    have hf : List.filter (fun x => decide (f x = l)) [e] = [] := by
      simp only [List.filter_cons, List.filter_nil]
      rw [if_neg]
      simp only [decide_eq_true_eq]
      exact fun hc => hl hc.symm
    rw [hf, List.append_nil]

/-- Witness for the amended C8 at the concrete world `wLive`. -/
theorem layer_read_at_flush_app :
    ((2 : Int) ≠ fzero 4) ∧
      (World.FlushQueues fzero (wLive.Add 4)).getLayer (fzero 4)
        = (World.FlushQueues fzero wLive).getLayer (fzero 4) ++ [4] ∧
      (World.FlushQueues fzero (wLive.Add 4)).getLayer 2
        = (World.FlushQueues fzero wLive).getLayer 2 :=
  ⟨by decide, (layer_read_at_flush fzero wLive 4).1,
    (layer_read_at_flush fzero wLive 4).2 2 (by decide)⟩

/-! ### Recycling pool (C10) -/

theorem recycle_pool_get (w : World E) (k : String) (e : E) :
    getD (World.Recycle w k e).pool k [] = getD w.pool k [] ++ [e] := by
  simp only [World.Recycle]
  rw [getD_mapSet_self]

theorem create_nonempty (w : World E) (k : String) (ctor : Unit → E) {l : List E}
    (hl : getD w.pool k [] = l) (hne : l ≠ []) :
    World.Create w k ctor
      = (l.getLast hne, { w with pool := mapSet w.pool k l.dropLast }) := by
  subst hl
  simp only [World.Create]
  rw [dif_neg hne]

theorem getLast_append_one (l : List E) (e : E) (h : l ++ [e] ≠ []) :
    (l ++ [e]).getLast h = e :=
  List.getLast_append_singleton l

theorem dropLast_append_one (l : List E) (e : E) : (l ++ [e]).dropLast = l :=
  List.dropLast_concat

/-- Claim C10: after `Recycle(kind, e)` a subsequent `Create(kind, ctor)`
returns `e` itself without invoking `ctor` (the outcome is independent of the
constructor); `ctor` is invoked (and the world untouched) exactly when the
pool for the kind is empty; and several recycled entities of the same kind
come back in last-in-first-out order. -/
theorem pool_lifo (w : World E) (k : String) (e e2 : E) (ctor : Unit → E) :
    (World.Create (World.Recycle w k e) k ctor).1 = e ∧
    (∀ ctor2 : Unit → E, World.Create (World.Recycle w k e) k ctor2
        = World.Create (World.Recycle w k e) k ctor) ∧
    (getD w.pool k [] = [] → World.Create w k ctor = (ctor (), w)) ∧
    (World.Create (World.Recycle (World.Recycle w k e) k e2) k ctor).1 = e2 ∧
    (World.Create ((World.Create (World.Recycle (World.Recycle w k e) k e2) k ctor).2)
        k ctor).1 = e := by
  have h1 : getD (World.Recycle w k e).pool k [] = getD w.pool k [] ++ [e] :=
    recycle_pool_get w k e
  have hne1 : getD w.pool k [] ++ [e] ≠ [] := by simp
  have h2 : getD (World.Recycle (World.Recycle w k e) k e2).pool k []
      = (getD w.pool k [] ++ [e]) ++ [e2] := by
    rw [recycle_pool_get, recycle_pool_get]
  have hne2 : (getD w.pool k [] ++ [e]) ++ [e2] ≠ [] := by simp
  refine ⟨?_, ?_, ?_, ?_, ?_⟩
  · rw [create_nonempty _ _ _ h1 hne1]
    exact getLast_append_one _ _ _
  · intro ctor2
    rw [create_nonempty _ _ _ h1 hne1, create_nonempty _ _ _ h1 hne1]
  · intro h
    simp only [World.Create]
    rw [dif_pos h]
  · rw [create_nonempty _ _ _ h2 hne2]
    exact getLast_append_one _ _ _
  · rw [create_nonempty _ _ _ h2 hne2]
    have h3 : getD (mapSet (World.Recycle (World.Recycle w k e) k e2).pool k
        ((getD w.pool k [] ++ [e]) ++ [e2]).dropLast) k [] = getD w.pool k [] ++ [e] := by
      rw [getD_mapSet_self, dropLast_append_one]
    rw [create_nonempty _ _ _ h3 hne1]
    exact getLast_append_one _ _ _

/-- Witness for C10: the empty-pool conjunct discharged at `NewWorld` (and
hence the whole statement at a concrete instance). -/
theorem pool_lifo_app :
    getD (NewWorld : World Nat).pool "enemy" [] = [] ∧
      World.Create (NewWorld : World Nat) "enemy" (fun _ => 7)
        = ((7 : Nat), NewWorld) :=
  ⟨rfl, (pool_lifo (NewWorld : World Nat) "enemy" 1 2 (fun _ => 7)).2.2.1 rfl⟩

/-! ### Reorder on an absent entity is not a no-op (C9) -/

/-- Claim C9 fails on the code (code bug): `BringToFront` writes the scanned
slice back unconditionally, so calling it for an entity that was never added
creates the entity's layer key with an empty slice.  The comma-ok check of a
later flushed add then skips registering that layer in `layerOrder`, so the
added entity is live in the map (second conjunct) but `Entities` — documented
to return all entities of the world — misses it (first conjunct); without the
reorder call the same add is listed (third conjunct). -/
theorem bringToFront_absent_observable :
    World.entitiesList (World.FlushQueues fzero
        ((World.BringToFront fzero (NewWorld : World Nat) 0).Add 0)) = [] ∧
      (World.FlushQueues fzero
        ((World.BringToFront fzero (NewWorld : World Nat) 0).Add 0)).getLayer 0 = [0] ∧
      World.entitiesList (World.FlushQueues fzero ((NewWorld : World Nat).Add 0)) = [0] := by
  decide

/-! ### Known layers are monotone, never pruned (C7) -/

/-- Counterexample to claim C7 as stated: add entity 0 to layer 0, flush,
remove it, flush again.  The layer-order list still contains layer 0 and the
map still holds the key with an empty slice, although no entity is live and
no add is pending — an emptied layer remains a known layer. -/
theorem emptied_layer_stays_known :
    (World.FlushQueues fzero ((World.FlushQueues fzero
        ((NewWorld : World Nat).Add 0)).Remove 0)).layerOrder = [0] ∧
      (World.FlushQueues fzero ((World.FlushQueues fzero
        ((NewWorld : World Nat).Add 0)).Remove 0)).layers = [(0, ([] : List Nat))] ∧
      (World.FlushQueues fzero ((World.FlushQueues fzero
        ((NewWorld : World Nat).Add 0)).Remove 0)).addQueue = [] := by
  decide

/-! ### Preservation of the key/order invariant by `FlushQueues` -/

theorem removeOne_keyInvP (f : E → Int) {m : List (Int × List E)} {o : List Int}
    (h : KeyInvP m o) (e : E) : KeyInvP (removeOne f m e) o := by
  obtain ⟨h1, h2⟩ := h
  by_cases hc : e ∈ getD m (f e) []
  · obtain ⟨v, hv⟩ : ∃ v, mapGet m (f e) = some v := by
      cases hg : mapGet m (f e) with
      | none =>
        exfalso
        have hnil : getD m (f e) [] = [] := by unfold getD; rw [hg]; rfl
        rw [hnil] at hc; simp at hc
      | some v => exact ⟨v, rfl⟩
    have hm : removeOne f m e = mapSet m (f e) (eraseFirst (getD m (f e) []) e) := by
      simp only [removeOne]; rw [if_pos hc]
    rw [hm]
    constructor
    · intro p hp
      rcases mem_mapSet hp with hh | hh
      · rw [hh]
        exact h1 (f e, v) (mem_of_mapGet_some hv)
      · exact h1 p hh
    · intro l hl
      by_cases hlf : l = f e
      · subst hlf; rw [mapGet_mapSet_self]; rfl
      · rw [mapGet_mapSet_ne _ _ hlf]; exact h2 l hl
  · have hm : removeOne f m e = m := by simp only [removeOne]; rw [if_neg hc]
    rw [hm]; exact ⟨h1, h2⟩

theorem removeFold_keyInvP (f : E → Int) (q : List E) :
    ∀ {m : List (Int × List E)} {o : List Int}, KeyInvP m o →
      KeyInvP (q.foldl (removeOne f) m) o := by
  induction q with
  | nil => intro m o h; exact h
  | cons e q ih =>
    intro m o h
    rw [List.foldl_cons]
    exact ih (removeOne_keyInvP f h e)

theorem addOne_keyInvP (f : E → Int) {st : List (Int × List E) × List Int}
    (h : KeyInvP st.1 st.2) (e : E) : KeyInvP (addOne f st e).1 (addOne f st e).2 := by
  obtain ⟨h1, h2⟩ := h
  by_cases hk : (mapGet st.1 (f e)).isSome = true
  · obtain ⟨v, hv⟩ := Option.isSome_iff_exists.mp hk
    simp only [addOne, hk, if_true]
    constructor
    · intro p hp
      rcases mem_mapSet hp with hh | hh
      · rw [hh]; exact h1 (f e, v) (mem_of_mapGet_some hv)
      · exact h1 p hh
    · intro l hl
      by_cases hlf : l = f e
      · subst hlf; rw [mapGet_mapSet_self]; rfl
      · rw [mapGet_mapSet_ne _ _ hlf]; exact h2 l hl
  · have hnone : mapGet st.1 (f e) = none := by
      cases hg : mapGet st.1 (f e)
      · rfl
      · rw [hg] at hk; simp at hk
    simp only [addOne, hnone, Option.isSome_none, Bool.false_eq_true, if_false]
    have hmem_sort : ∀ l : Int,
        l ∈ List.insertionSort (· ≤ ·) (st.2 ++ [f e]) ↔ (l ∈ st.2 ∨ l = f e) := by
      intro l
      rw [(List.perm_insertionSort (· ≤ ·) (st.2 ++ [f e])).mem_iff]
      simp
    constructor
    · intro p hp
      rcases mem_mapSet hp with hh | hh
      · rw [hh, hmem_sort]
        exact Or.inr rfl
      · rcases mem_mapSet hh with hh2 | hh2
        · rw [hh2]; rw [hmem_sort]
          exact Or.inr rfl
        · rw [hmem_sort]
          exact Or.inl (h1 p hh2)
    · intro l hl
      rw [hmem_sort] at hl
      by_cases hlf : l = f e
      · subst hlf; rw [mapGet_mapSet_self]; rfl
      · rcases hl with hl | hl
        · rw [mapGet_mapSet_ne _ _ hlf, mapGet_mapSet_ne _ _ hlf]
          exact h2 l hl
        · exact absurd hl hlf

theorem pairwise_lt_of_le_nodup {L : List Int} (hs : L.Pairwise (· ≤ ·)) (hn : L.Nodup) :
    L.Pairwise (· < ·) :=
  (hs.and hn).imp (fun h => lt_of_le_of_ne h.1 h.2)

theorem addOne_pairwise (f : E → Int) {st : List (Int × List E) × List Int}
    (hkey : KeyInvP st.1 st.2) (hp : st.2.Pairwise (· < ·)) (e : E) :
    (addOne f st e).2.Pairwise (· < ·) := by
  by_cases hk : (mapGet st.1 (f e)).isSome = true
  · simp only [addOne, hk, if_true]
    exact hp
  · have hnone : mapGet st.1 (f e) = none := by
      cases hg : mapGet st.1 (f e)
      · rfl
      · rw [hg] at hk; simp at hk
    simp only [addOne, hnone, Option.isSome_none, Bool.false_eq_true, if_false]
    have hnotin : f e ∉ st.2 := by
      intro hmem
      have := hkey.2 (f e) hmem
      rw [hnone] at this
      simp at this
    have hnd0 : st.2.Nodup := hp.imp (fun h => ne_of_lt h)
    have hnd : (st.2 ++ [f e]).Nodup := by
      refine List.Nodup.append hnd0 (List.nodup_singleton _) ?_
      intro a ha hb
      rw [List.mem_singleton] at hb
      subst hb
      exact hnotin ha
    have hsorted : (List.insertionSort (· ≤ ·) (st.2 ++ [f e])).Pairwise (· ≤ ·) :=
      List.sorted_insertionSort (· ≤ ·) (st.2 ++ [f e])
    have hnd2 : (List.insertionSort (· ≤ ·) (st.2 ++ [f e])).Nodup :=
      ((List.perm_insertionSort (· ≤ ·) (st.2 ++ [f e])).nodup_iff).mpr hnd
    exact pairwise_lt_of_le_nodup hsorted hnd2

theorem addOne_order_mono (f : E → Int) (st : List (Int × List E) × List Int) (e : E)
    {l : Int} (hl : l ∈ st.2) : l ∈ (addOne f st e).2 := by
  by_cases hk : (mapGet st.1 (f e)).isSome = true
  · simp only [addOne, hk, if_true]; exact hl
  · have hnone : mapGet st.1 (f e) = none := by
      cases hg : mapGet st.1 (f e)
      · rfl
      · rw [hg] at hk; simp at hk
    simp only [addOne, hnone, Option.isSome_none, Bool.false_eq_true, if_false]
    rw [(List.perm_insertionSort (· ≤ ·) (st.2 ++ [f e])).mem_iff]
    exact List.mem_append_left _ hl

theorem addFold_keyInvP (f : E → Int) (q : List E) :
    ∀ st : List (Int × List E) × List Int, KeyInvP st.1 st.2 →
      KeyInvP (q.foldl (addOne f) st).1 (q.foldl (addOne f) st).2 := by
  induction q with
  | nil => intro st h; exact h
  | cons e q ih =>
    intro st h
    rw [List.foldl_cons]
    exact ih _ (addOne_keyInvP f h e)

theorem addFold_pinv (f : E → Int) (q : List E) :
    ∀ st : List (Int × List E) × List Int, KeyInvP st.1 st.2 →
      st.2.Pairwise (· < ·) →
        KeyInvP (q.foldl (addOne f) st).1 (q.foldl (addOne f) st).2 ∧
          (q.foldl (addOne f) st).2.Pairwise (· < ·) := by
  induction q with
  | nil => intro st h hp; exact ⟨h, hp⟩
  | cons e q ih =>
    intro st h hp
    rw [List.foldl_cons]
    exact ih _ (addOne_keyInvP f h e) (addOne_pairwise f h hp e)

theorem addFold_order_mono (f : E → Int) (q : List E) :
    ∀ st : List (Int × List E) × List Int, ∀ {l : Int}, l ∈ st.2 →
      l ∈ (q.foldl (addOne f) st).2 := by
  induction q with
  | nil => intro st l hl; exact hl
  | cons e q ih =>
    intro st l hl
    rw [List.foldl_cons]
    exact ih _ (addOne_order_mono f st e hl)

theorem flush_KeyInv (f : E → Int) (w : World E) (h : KeyInv w) :
    KeyInv (World.FlushQueues f w) := by
  have h1 : KeyInvP (w.removeQueue.foldl (removeOne f) w.layers) w.layerOrder :=
    removeFold_keyInvP f w.removeQueue h
  exact addFold_keyInvP f w.addQueue
    (w.removeQueue.foldl (removeOne f) w.layers, w.layerOrder) h1

theorem flush_WInv (f : E → Int) (w : World E) (h : WInv w) :
    WInv (World.FlushQueues f w) := by
  obtain ⟨hp, hk⟩ := h
  have h1 : KeyInvP (w.removeQueue.foldl (removeOne f) w.layers) w.layerOrder :=
    removeFold_keyInvP f w.removeQueue hk
  have h2 := addFold_pinv f w.addQueue
    (w.removeQueue.foldl (removeOne f) w.layers, w.layerOrder) h1 hp
  exact ⟨h2.2, h2.1⟩

theorem flush_order_mono (f : E → Int) (w : World E) {l : Int}
    (hl : l ∈ w.layerOrder) : l ∈ (World.FlushQueues f w).layerOrder :=
  addFold_order_mono f w.addQueue
    (w.removeQueue.foldl (removeOne f) w.layers, w.layerOrder) hl

theorem getLayer_empty_of_not_mem {w : World E} (hk : KeyInv w) {l : Int}
    (hl : l ∉ w.layerOrder) : w.getLayer l = [] := by
  cases hg : mapGet w.layers l with
  | none =>
    show getD w.layers l [] = []
    unfold getD; rw [hg]; rfl
  | some v =>
    exact absurd (hk.1 (l, v) (mem_of_mapGet_some hg)) hl

/-- Claim C7, amended: the known-layer list always covers the live contents —
after a flush it still satisfies the key/order invariant, every layer with a
nonempty slice is listed — and it is monotone: flushing never removes a layer
from the list, so a layer whose last entity is removed remains known (the
counterexample `emptied_layer_stays_known` shows the original exact-match
claim fails).  A layer only pending in the add queue becomes known at the
flush, not before. -/
theorem known_layers_cover_mono (f : E → Int) (w : World E) (hw : KeyInv w) :
    KeyInv (World.FlushQueues f w) ∧
      (∀ l ∈ w.layerOrder, l ∈ (World.FlushQueues f w).layerOrder) ∧
      (∀ l, (World.FlushQueues f w).getLayer l ≠ [] →
        l ∈ (World.FlushQueues f w).layerOrder) := by
  refine ⟨flush_KeyInv f w hw, fun l hl => flush_order_mono f w hl, ?_⟩
  intro l hne
  by_cases hmem : l ∈ (World.FlushQueues f w).layerOrder
  · exact hmem
  · exact absurd (getLayer_empty_of_not_mem (flush_KeyInv f w hw) hmem) hne

/-- Witness for the amended C7 at the concrete world `wLive`. -/
theorem known_layers_cover_mono_app :
    KeyInv wLive ∧
      (KeyInv (World.FlushQueues fzero wLive) ∧
        (∀ l ∈ wLive.layerOrder, l ∈ (World.FlushQueues fzero wLive).layerOrder) ∧
        (∀ l, (World.FlushQueues fzero wLive).getLayer l ≠ [] →
          l ∈ (World.FlushQueues fzero wLive).layerOrder)) :=
  ⟨by unfold KeyInv KeyInvP; decide,
    known_layers_cover_mono fzero wLive (by unfold KeyInv KeyInvP; decide)⟩

/-! ### Layer-sorted iteration order of `Entities` (C5) -/

theorem pairwise_lt_split {l1 l2 : Int} (h12 : l1 < l2) :
    ∀ {L : List Int}, L.Pairwise (· < ·) → l1 ∈ L → l2 ∈ L →
      ∃ A B C, L = A ++ l1 :: (B ++ l2 :: C) := by
  intro L
  induction L with
  | nil => intro _ h1 _; simp at h1
  | cons x L ih =>
    intro hp h1 h2
    obtain ⟨hx, hL⟩ := List.pairwise_cons.mp hp
    by_cases hx1 : x = l1
    · subst hx1
      have h2L : l2 ∈ L := by
        rw [List.mem_cons] at h2
        rcases h2 with h | h
        · exfalso; omega
        · exact h
      obtain ⟨s, t, hst⟩ := List.append_of_mem h2L
      exact ⟨[], s, t, by simp [hst]⟩
    · have h1L : l1 ∈ L := by
        rw [List.mem_cons] at h1
        rcases h1 with h | h
        · exact absurd h.symm hx1
        · exact h
      by_cases hx2 : x = l2
      · subst hx2
        have := hx l1 h1L
        exfalso; omega
      · have h2L : l2 ∈ L := by
          rw [List.mem_cons] at h2
          rcases h2 with h | h
          · exact absurd h.symm hx2
          · exact h
        obtain ⟨A, B, C, hs⟩ := ih hL h1L h2L
        exact ⟨x :: A, B, C, by rw [hs]; rfl⟩

theorem foldl_append_eq (g : Int → List E) :
    ∀ (L : List Int) (init : List E),
      L.foldl (fun acc l => acc ++ g l) init = init ++ L.flatMap g := by
  intro L
  induction L with
  | nil => intro init; simp
  | cons x L ih =>
    intro init
    rw [List.foldl_cons, ih, List.flatMap_cons, List.append_assoc]

theorem entitiesList_eq (w : World E) :
    w.entitiesList = w.layerOrder.flatMap (fun l => w.getLayer l) := by
  unfold World.entitiesList
  rw [foldl_append_eq]
  rfl

/-- Claim C5: starting from a world satisfying the container invariant, after
the implicit flush `Entities` lists, for any two layers `l1 < l2`, every
entity of layer `l1`'s grouping before every entity of layer `l2`'s grouping
(first conjunct: the flat list decomposes around the two complete layer
slices in order); and within a single layer entities appear in insertion
(flush) order: the flushed slice of each layer is its post-removal contents
followed by this flush's queued additions in queue order (second conjunct). -/
theorem entities_layer_sorted (f : E → Int) (w : World E) (hw : WInv w)
    (l1 l2 : Int) (h12 : l1 < l2) :
    (∃ A B C, (World.Entities f w).1
        = A ++ (World.FlushQueues f w).getLayer l1 ++ B
            ++ (World.FlushQueues f w).getLayer l2 ++ C) ∧
      (∀ l, (World.FlushQueues f w).getLayer l =
          getD (w.removeQueue.foldl (removeOne f) w.layers) l [] ++
            w.addQueue.filter (fun e => decide (f e = l))) := by
  refine ⟨?_, flush_getLayer f w⟩
  have hw2 : WInv (World.FlushQueues f w) := flush_WInv f w hw
  obtain ⟨hpw, hkey⟩ := hw2
  have hEnt : (World.Entities f w).1
      = (World.FlushQueues f w).layerOrder.flatMap
          (fun l => (World.FlushQueues f w).getLayer l) :=
    entitiesList_eq (World.FlushQueues f w)
  by_cases h1 : l1 ∈ (World.FlushQueues f w).layerOrder
  · by_cases h2 : l2 ∈ (World.FlushQueues f w).layerOrder
    · obtain ⟨A, B, C, hs⟩ := pairwise_lt_split h12 hpw h1 h2
      refine ⟨A.flatMap (fun l => (World.FlushQueues f w).getLayer l),
        B.flatMap (fun l => (World.FlushQueues f w).getLayer l),
        C.flatMap (fun l => (World.FlushQueues f w).getLayer l), ?_⟩
      rw [hEnt, hs]
      simp [List.flatMap_append, List.flatMap_cons, List.append_assoc]
    · have hempty2 : (World.FlushQueues f w).getLayer l2 = [] :=
        getLayer_empty_of_not_mem hkey h2
      obtain ⟨s, t, hst⟩ := List.append_of_mem h1
      refine ⟨s.flatMap (fun l => (World.FlushQueues f w).getLayer l),
        t.flatMap (fun l => (World.FlushQueues f w).getLayer l), [], ?_⟩
      rw [hEnt, hst, hempty2]
      simp [List.flatMap_append, List.flatMap_cons, List.append_assoc]
  · have hempty1 : (World.FlushQueues f w).getLayer l1 = [] :=
      getLayer_empty_of_not_mem hkey h1
    by_cases h2 : l2 ∈ (World.FlushQueues f w).layerOrder
    · obtain ⟨s, t, hst⟩ := List.append_of_mem h2
      refine ⟨[], s.flatMap (fun l => (World.FlushQueues f w).getLayer l),
        t.flatMap (fun l => (World.FlushQueues f w).getLayer l), ?_⟩
      rw [hEnt, hst, hempty1]
      simp [List.flatMap_append, List.flatMap_cons, List.append_assoc]
    · have hempty2 : (World.FlushQueues f w).getLayer l2 = [] :=
        getLayer_empty_of_not_mem hkey h2
      refine ⟨(World.Entities f w).1, [], [], ?_⟩
      rw [hempty1, hempty2]
      simp

/-- Witness for C5: the spec scenario — queue entity 5 on layer 1, then
entity 9 on layer 0; after the flush the layer-0 block precedes the layer-1
block in `Entities`. -/
theorem entities_layer_sorted_app :
    WInv wAB ∧ (0 : Int) < 1 ∧
      ((∃ A B C, (World.Entities fAB wAB).1
          = A ++ (World.FlushQueues fAB wAB).getLayer 0 ++ B
              ++ (World.FlushQueues fAB wAB).getLayer 1 ++ C) ∧
        (∀ l, (World.FlushQueues fAB wAB).getLayer l =
            getD (wAB.removeQueue.foldl (removeOne fAB) wAB.layers) l [] ++
              wAB.addQueue.filter (fun e => decide (fAB e = l)))) :=
  ⟨by unfold WInv KeyInv KeyInvP; decide, by decide,
    entities_layer_sorted fAB wAB (by unfold WInv KeyInv KeyInvP; decide) 0 1 (by decide)⟩

end Runt
